import Mathlib

set_option maxRecDepth 100000

/-!
Verification of the `split_auto.py` source-splitting pipeline.

This file gives a shallow embedding of `split_auto.py`, the tool that scans a
monolithic C++ file, locates function definitions by brace-depth tracking,
classifies them through a name-to-category table, and emits per-category
partition files plus a reduced core file.

The embedding is line-for-line faithful to the Python source:

* `matchHeaderCG` embeds the scanner regex
  `^(llvm::\w+\*|void|bool|std::string) CodeGenerator::(\w+)\(` (applied with
  `re.match`, i.e. anchored at the start of the line).  Since the four
  alternatives start with pairwise distinct characters and `\w` runs are
  maximal-munch followed by a non-word literal, regex backtracking reduces to
  the sequential attempts implemented here.
* `headerPrefixCG` embeds the looser preamble regex
  `^(llvm::\w+\*|void|bool|std::string) CodeGenerator::` used when writing the
  reduced file.
* `scanExtent` embeds the inner brace-counting `while`/`else` loop of
  `find_functions`; the returned `Bool` records whether the loop ended by
  `break` (balanced close found) or fell off the end of the file.
* `findRecordsAux` embeds the outer loop of `find_functions`, producing the
  sequence of records in discovery order; `find_functions` folds that sequence
  into a name-keyed map with Python-`dict` update semantics (`dictInsert`
  replaces in place, keeping the original insertion position).
* The classification table, the grouping-dict key order, the per-category
  header comments and the `keep_functions` allow-list are configuration data
  (`Config`); `CONFIG_CG` is the concrete configuration hardcoded in the
  script.
* `partitionContent`, `reducedContent` and `emittedFiles` embed the two
  emission phases; file content is the concatenation of the individual
  `f.write` calls.

Python's `\w` matches Unicode word characters; the inputs of interest are
ASCII, and `isWordChar` models the ASCII case.
-/

/-- ASCII model of the regex class `\w`: letters, digits, underscore. -/
def isWordChar (c : Char) : Bool :=
  c.isAlphanum || c = '_'

/-- Consume the literal `pat` from the front of `cs`; `none` if absent. -/
def dropLit : List Char → List Char → Option (List Char)
  | [], cs => some cs
  | _ :: _, [] => none
  | p :: ps, c :: cs => if c = p then dropLit ps cs else none

/-- Split off the maximal run of word characters (models greedy `\w+`
followed by a non-word literal, where no backtracking is possible). -/
def takeWord : List Char → List Char × List Char
  | [] => ([], [])
  | c :: cs =>
    if isWordChar c then
      let (w, r) := takeWord cs
      (c :: w, r)
    else ([], c :: cs)

/-- Match the group `(llvm::\w+\*|void|bool|std::string)` at the front of
`cs`, returning the rest of the line. -/
def matchRet (cs : List Char) : Option (List Char) :=
  match dropLit "llvm::".data cs with
  | some r1 =>
    let (w, r2) := takeWord r1
    if w = [] then none
    else
      match r2 with
      | '*' :: r3 => some r3
      | _ => none
  | none =>
    match dropLit "void".data cs with
    | some r => some r
    | none =>
      match dropLit "bool".data cs with
      | some r => some r
      | none => dropLit "std::string".data cs

/-- Embedding of
`re.match(r'^(llvm::\w+\*|void|bool|std::string) CodeGenerator::(\w+)\(', line)`,
returning the captured function name (group 2). -/
def matchHeaderCG (line : String) : Option String :=
  match matchRet line.data with
  | none => none
  | some r1 =>
    match dropLit " CodeGenerator::".data r1 with
    | none => none
    | some r2 =>
      let (w, r3) := takeWord r2
      if w = [] then none
      else
        match r3 with
        | '(' :: _ => some (String.mk w)
        | _ => none

/-- Embedding of the looser reduced-file preamble test
`re.match(r'^(llvm::\w+\*|void|bool|std::string) CodeGenerator::', line)`. -/
def headerPrefixCG (line : String) : Bool :=
  match matchRet line.data with
  | none => false
  | some r1 => (dropLit " CodeGenerator::".data r1).isSome

/-- Embedding of Python's `c in line` membership test on a string. -/
def hasChar (line : String) (c : Char) : Bool :=
  line.data.contains c

/-- Embedding of Python's `line.count(c)`. -/
def countChar (line : String) (c : Char) : Nat :=
  line.data.count c

/-- Concatenation of a list of written strings (the content produced by a
sequence of `f.write` calls, or by `''.join`). -/
def strConcat : List String → String
  | [] => ""
  | s :: ss => s ++ strConcat ss

/-- Embedding of `''.join(lines[s:e])`. -/
def sliceText (lines : List String) (s e : Nat) : String :=
  strConcat ((lines.drop s).take (e - s))

/-- Embedding of the inner extent loop of `find_functions`:

```python
j = i + 1; brace_count = 0; in_function = False
while j < len(lines):
    if '{' in lines[j]:
        brace_count += lines[j].count('{')
        in_function = True
    if '}' in lines[j]:
        brace_count -= lines[j].count('}')
    if in_function and brace_count == 0:
        end = j + 1; break
    j += 1
else:
    end = len(lines)
```

Returns `(end, closed)` where `closed` is true iff the loop ended by `break`.
`brace_count` is an `Int`: it can go negative.

The loop is phrased with explicit fuel so that it is structurally recursive
(and hence evaluates by `decide`/`rfl`); `j` increases by one per iteration
and the loop stops as soon as `j` reaches `len(lines)`, so fuel
`len(lines) - j` makes `scanExtentF` run out of fuel exactly when the `while`
condition fails, returning the `else`-clause value `(len(lines), false)`. -/
def scanExtentF (lines : List String) : Nat → Nat → Int → Bool → Nat × Bool
  | 0, _, _, _ => (lines.length, false)
  | fuel + 1, j, bc, inf =>
    if h : j < lines.length then
      let line := lines[j]
      let bc1 : Int := if hasChar line '\x7b' then bc + (countChar line '\x7b' : Int) else bc
      let inf1 : Bool := if hasChar line '\x7b' then true else inf
      let bc2 : Int := if hasChar line '\x7d' then bc1 - (countChar line '\x7d' : Int) else bc1
      if inf1 && bc2 == 0 then (j + 1, true)
      else scanExtentF lines fuel (j + 1) bc2 inf1
    else (lines.length, false)

/-- The extent loop started at line `j` (the `j = i + 1` of the caller). -/
def scanExtent (lines : List String) (j : Nat) (bc : Int) (inf : Bool) : Nat × Bool :=
  scanExtentF lines (lines.length - j) j bc inf

/-- One scanned function definition: the Python tuple
`(start, end, FUNCTION_MAP[func_name])` stored under `func_name`, together
with whether the extent loop found a balanced close (`closed = true`) or was
truncated at end of input. -/
structure FuncRec where
  name : String
  start : Nat
  stop : Nat
  key : String
  closed : Bool
deriving DecidableEq, Repr

/-- First-match association-list lookup: models both `name in FUNCTION_MAP`
and `FUNCTION_MAP[name]` (dict literals have unique keys). -/
def lookupStr : List (String × String) → String → Option String
  | [], _ => none
  | (k, v) :: rest, n => if k = n then some v else lookupStr rest n

/-- The outer loop of `find_functions`, producing the records in discovery
order (one per executed `functions[func_name] = ...` assignment):

```python
i = 0
while i < len(lines):
    match = re.match(r'^(llvm::\w+\*|void|bool|std::string) CodeGenerator::(\w+)\(', lines[i])
    if match:
        func_name = match.group(2)
        if func_name in FUNCTION_MAP:
            start = i
            ...extent scan...
            functions[func_name] = (start, end, FUNCTION_MAP[func_name])
            i = end
            continue
    i += 1
```

As with the extent loop, the loop is phrased with explicit fuel so that it is
structurally recursive: `i` strictly increases per iteration and the loop
stops once `i` reaches `len(lines)`, so any fuel of at least
`len(lines) - i` computes the loop's value (`findRecordsAux_irrel` below
shows the fuel is irrelevant in that range). -/
def findRecordsAux (fmap : List (String × String)) (lines : List String) :
    Nat → Nat → List FuncRec
  | 0, _ => []
  | fuel + 1, i =>
    if h : i < lines.length then
      match matchHeaderCG lines[i] with
      | some nm =>
        match lookupStr fmap nm with
        | some key =>
          let se := scanExtent lines (i + 1) 0 false
          ⟨nm, i, se.1, key, se.2⟩ :: findRecordsAux fmap lines fuel se.1
        | none => findRecordsAux fmap lines fuel (i + 1)
      | none => findRecordsAux fmap lines fuel (i + 1)
    else []

/-- The scan result in discovery order (`i` starts at `0`, so fuel
`len(lines)` suffices). -/
def findRecords (fmap : List (String × String)) (lines : List String) : List FuncRec :=
  findRecordsAux fmap lines lines.length 0

/-- Python `dict` update keyed by function name: replace in place (keeping
the original insertion position) or append. -/
def dictInsert : List FuncRec → FuncRec → List FuncRec
  | [], r => [r]
  | r' :: rest, r => if r'.name = r.name then r :: rest else r' :: dictInsert rest r

/-- Python `dict` lookup keyed by function name. -/
def dictFind : List FuncRec → String → Option FuncRec
  | [], _ => none
  | r :: rest, n => if r.name = n then some r else dictFind rest n

/-- Embedding of `find_functions()`: the discovery sequence collapsed into
the name-keyed `functions` dict (in insertion order). -/
def find_functions (fmap : List (String × String)) (lines : List String) : List FuncRec :=
  (findRecords fmap lines).foldl dictInsert []

/-- Insert a record into a list sorted by ascending start line. -/
def sortedInsert (r : FuncRec) : List FuncRec → List FuncRec
  | [] => [r]
  | r' :: rest => if r.start ≤ r'.start then r :: r' :: rest else r' :: sortedInsert r rest

/-- Sort records by ascending start line; models
`file_functions[key].sort(key=lambda x: x[1])` (a stable sort; the records of
one run have pairwise distinct start lines, so stability is immaterial). -/
def sortByStart : List FuncRec → List FuncRec
  | [] => []
  | r :: rest => sortedInsert r (sortByStart rest)

/-- The members of one partition, in emission order: the grouping loop
appends records in `functions.items()` order and each group is then sorted by
start line. -/
def groupFor (funcs : List FuncRec) (k : String) : List FuncRec :=
  sortByStart (funcs.filter fun r => r.key == k)

/-- The run's configuration data: the classification table (`FUNCTION_MAP`),
the grouping-dict keys in insertion order, the per-category header comments,
and the Core Reducer's allow-list (`keep_functions`). -/
structure Config where
  fmap : List (String × String)
  keyOrder : List String
  headers : List (String × String)
  keep : List String
deriving DecidableEq, Repr

/-- Header-comment lookup (`headers[file_key]`). -/
def lookupD (xs : List (String × String)) (k : String) : String :=
  match lookupStr xs k with
  | some v => v
  | none => ""

/-- Partition output path: `f'src/codegen/codegen_{file_key}.cpp'`. -/
def partPath (k : String) : String :=
  "src/codegen/codegen_" ++ k ++ ".cpp"

/-- Reduced-file output path. -/
def reducedPath : String :=
  "src/codegen/codegen_new.cpp"

/-- The path the script reads its input from. -/
def inputPath : String :=
  "src/codegen/codegen.cpp"

/-- The per-function writes of the partition emission loop:
`f.write(''.join(lines[start:end])); f.write('\n')`. -/
def emitFuncs (lines : List String) : List FuncRec → String
  | [] => ""
  | r :: rest => sliceText lines r.start r.stop ++ "\n" ++ emitFuncs lines rest

/-- Content of one partition file: category header comment, the two fixed
includes, the namespace opener, the sorted group, the namespace closer. -/
def partitionContent (cfg : Config) (lines : List String) (k : String) : String :=
  lookupD cfg.headers k
    ++ "#include \"codegen.h\"\n"
    ++ "#include <iostream>\n\n"
    ++ "namespace pawc \x7b\n\n"
    ++ emitFuncs lines (groupFor (find_functions cfg.fmap lines) k)
    ++ "\x7d // namespace pawc\n"

/-- The partition files written by the emission loop, in dict-key order;
empty groups are skipped (`if not funcs: continue`). -/
def partFiles (cfg : Config) (lines : List String) (ks : List String) :
    List (String × String) :=
  ks.filterMap fun k =>
    if groupFor (find_functions cfg.fmap lines) k = [] then none
    else some (partPath k, partitionContent cfg lines k)

/-- The preamble-copying loop of the reduced-file emission: write each line
until one matches the looser header-prefix regex. -/
def writePreamble : List String → String
  | [] => ""
  | l :: ls => if headerPrefixCG l then "" else l ++ writePreamble ls

/-- The allow-list loop of the reduced-file emission:
`for func_name in keep_functions: if func_name in functions: ...write...`. -/
def keepLoop (funcs : List FuncRec) (lines : List String) : List String → String
  | [] => ""
  | n :: ns =>
    (match dictFind funcs n with
     | some r => sliceText lines r.start r.stop ++ "\n"
     | none => "") ++ keepLoop funcs lines ns

/-- Content of the reduced `codegen_new.cpp`: preamble, allow-listed
functions in allow-list order, unconditional closing namespace marker. -/
def reducedContent (cfg : Config) (lines : List String) : String :=
  writePreamble lines
    ++ keepLoop (find_functions cfg.fmap lines) lines cfg.keep
    ++ "\x7d // namespace pawc\n"

/-- All files written by one run, in write order: the non-empty partitions,
then the reduced file. -/
def emittedFiles (cfg : Config) (lines : List String) : List (String × String) :=
  partFiles cfg lines cfg.keyOrder ++ [(reducedPath, reducedContent cfg lines)]

/-- The classification table hardcoded in the script. -/
def FUNCTION_MAP : List (String × String) :=
  [("generateMatchExpr", "match"),
   ("generateIsExpr", "match"),
   ("matchPattern", "match"),
   ("convertType", "type"),
   ("convertPrimitiveType", "type"),
   ("getOrCreateStructType", "type"),
   ("getEnumType", "type"),
   ("createOptionalType", "type"),
   ("ensureOptionalEnumDef", "type"),
   ("resolveGenericType", "type"),
   ("mangleGenericName", "type"),
   ("resolveGenericStructName", "type"),
   ("isGenericFunction", "type"),
   ("instantiateGenericFunction", "type"),
   ("instantiateGenericStruct", "type"),
   ("instantiateGenericEnum", "type"),
   ("instantiateGenericStructMethods", "type"),
   ("convertTypeToCurrentContext", "type"),
   ("generateFunctionStmt", "struct"),
   ("generateExternStmt", "struct"),
   ("generateStructStmt", "struct"),
   ("generateEnumStmt", "struct"),
   ("generateImplStmt", "struct"),
   ("generateStructLiteralExpr", "struct"),
   ("generateEnumVariantExpr", "struct"),
   ("generateMemberAccessExpr", "struct"),
   ("generateArrayLiteralExpr", "struct"),
   ("importTypeFromModule", "struct"),
   ("generateStmt", "stmt"),
   ("generateLetStmt", "stmt"),
   ("generateReturnStmt", "stmt"),
   ("generateIfStmt", "stmt"),
   ("generateLoopStmt", "stmt"),
   ("generateBreakStmt", "stmt"),
   ("generateContinueStmt", "stmt"),
   ("generateBlockStmt", "stmt"),
   ("generateExprStmt", "stmt"),
   ("generateExpr", "expr"),
   ("generateBinaryExpr", "expr"),
   ("generateUnaryExpr", "expr"),
   ("generateCallExpr", "expr"),
   ("generateArgumentValue", "expr"),
   ("generateBuiltinCall", "expr"),
   ("generateAssignExpr", "expr"),
   ("generateIndexExpr", "expr"),
   ("generateIdentifierExpr", "expr"),
   ("generateIfExpr", "expr"),
   ("generateCastExpr", "expr"),
   ("generateTryExpr", "expr"),
   ("generateOkExpr", "expr"),
   ("generateErrExpr", "expr")]

/-- The keys of the grouping dict `file_functions`, in insertion order. -/
def fileKeys : List String :=
  ["match", "type", "struct", "stmt", "expr"]

/-- The per-category header comments hardcoded in the script. -/
def headersCG : List (String × String) :=
  [("match", "// 模式匹配代码生成\n"),
   ("type", "// 类型转换和泛型实例化\n"),
   ("struct", "// Struct和Enum代码生成\n"),
   ("stmt", "// 语句代码生成\n"),
   ("expr", "// 表达式代码生成\n")]

/-- The Core Reducer's allow-list hardcoded in the script. -/
def keep_functions : List String :=
  ["printIR", "saveIR", "compileToObject", "generate"]

/-- The script's hardcoded configuration. -/
def CONFIG_CG : Config :=
  ⟨FUNCTION_MAP, fileKeys, headersCG, keep_functions⟩

/-- The end-to-end example's configuration: table `f -> cat1, g -> cat2`,
allow-list `["g"]` (grouping keys and header comments supplied to match). -/
def configC1 : Config :=
  ⟨[("f", "cat1"), ("g", "cat2")],
   ["cat1", "cat2"],
   [("cat1", "// cat1\n"), ("cat2", "// cat2\n")],
   ["g"]⟩

/-- The end-to-end example's input, exactly as the spec states it. -/
def linesC1 : List String :=
  ["A::f()\x7b int x = 1; return x; \x7d\n",
   "A::g()\x7b \x7d\n"]

/-- The end-to-end example's input renamed to the header shape the scanner
regex actually recognizes. -/
def linesC1CG : List String :=
  ["void CodeGenerator::f()\x7b int x = 1; return x; \x7d\n",
   "void CodeGenerator::g()\x7b \x7d\n"]

/-- A recognized header followed by a stray closing brace before the body's
first opening brace. -/
def linesC2a : List String :=
  ["void CodeGenerator::generateStmt(\n",
   "\x7d\n",
   "\x7b\n",
   "\x7d\n"]

/-- The same function without the stray closing brace. -/
def linesC2b : List String :=
  ["void CodeGenerator::generateStmt(\n",
   "\x7b\n",
   "\x7d\n"]

/-- A definition of `generate`: recognized by the scanner regex, absent from
`FUNCTION_MAP`, present on the script's own `keep_functions` allow-list. -/
def linesGen : List String :=
  ["// preamble\n",
   "namespace pawc \x7b\n",
   "void CodeGenerator::generate(AST& ast)\n",
   "\x7b\n",
   "    return;\n",
   "\x7d\n"]

/-- Two definitions of the same classified name `generateStmt`. -/
def linesDup : List String :=
  ["void CodeGenerator::generateStmt()\n",
   "\x7b\n",
   "\x7d\n",
   "void CodeGenerator::generateStmt()\n",
   "\x7b\n",
   "    return;\n",
   "\x7d\n"]

/-- A line matching the looser preamble regex but not the scanner regex,
ahead of the first recognized function-definition header. -/
def linesC5 : List String :=
  ["// top\n",
   "void CodeGenerator::\n",
   "void CodeGenerator::generateStmt()\n",
   "\x7b\n",
   "\x7d\n"]

/-- The script's configuration with the allow-list replaced by one name that
the scanner does record, to exercise the allow-list loop. -/
def configC5 : Config :=
  ⟨FUNCTION_MAP, fileKeys, headersCG, ["generateStmt"]⟩

theorem countChar_eq_zero (line : String) (c : Char) (h : hasChar line c = false) :
    countChar line c = 0 := by
  unfold hasChar at h
  unfold countChar
  simp only [List.count_eq_zero]
  intro hm
  have hc : line.data.contains c = true := List.elem_eq_true_of_mem hm
  rw [hc] at h
  exact Bool.noConfusion h

/-- Off the end of the file, the `while` loop falls through to its `else`
clause: `end = len(lines)`, no balanced close found. -/
theorem scanExtent_stop (lines : List String) (j : Nat) (bc : Int) (inf : Bool)
    (h : lines.length ≤ j) : scanExtent lines j bc inf = (lines.length, false) := by
  have h0 : lines.length - j = 0 := by omega
  rw [scanExtent, h0, scanExtentF]

theorem scanExtentF_stop (lines : List String) (fuel j : Nat) (bc : Int) (inf : Bool)
    (h : lines.length ≤ j) : scanExtentF lines fuel j bc inf = (lines.length, false) := by
  cases fuel with
  | zero => rfl
  | succ fuel => rw [scanExtentF, dif_neg (by omega)]

/-- One iteration of the extent loop, in closed form: the depth update adds
the count of `\x7b` and subtracts the count of `\x7d` unconditionally, while
the `in_function` flag (which arms the termination test) is set only by the
first `\x7b`. -/
theorem scanExtentF_step (lines : List String) (fuel j : Nat) (bc : Int) (inf : Bool)
    (h : j < lines.length) :
    scanExtentF lines (fuel + 1) j bc inf =
      (let line := lines[j]
       let bc2 : Int := bc + (countChar line '\x7b' : Int) - (countChar line '\x7d' : Int)
       let inf2 : Bool := hasChar line '\x7b' || inf
       if inf2 && bc2 == 0 then (j + 1, true)
       else scanExtentF lines fuel (j + 1) bc2 inf2) := by
  rw [scanExtentF, dif_pos h]
  dsimp only
  by_cases h1 : hasChar lines[j] '\x7b' <;>
    by_cases h2 : hasChar lines[j] '\x7d'
  · simp [h1, h2]
  · simp [h1, h2, countChar_eq_zero _ _ (by simpa using h2)]
  · simp [h1, h2, countChar_eq_zero _ _ (by simpa using h1)]
  · simp [h1, h2, countChar_eq_zero _ _ (by simpa using h1),
      countChar_eq_zero _ _ (by simpa using h2)]

/-- The wrapper's one-iteration unfolding. -/
theorem scanExtent_step (lines : List String) (j : Nat) (bc : Int) (inf : Bool)
    (h : j < lines.length) :
    scanExtent lines j bc inf =
      (let line := lines[j]
       let bc2 : Int := bc + (countChar line '\x7b' : Int) - (countChar line '\x7d' : Int)
       let inf2 : Bool := hasChar line '\x7b' || inf
       if inf2 && bc2 == 0 then (j + 1, true) else scanExtent lines (j + 1) bc2 inf2) := by
  have hf : lines.length - j = (lines.length - (j + 1)) + 1 := by omega
  rw [scanExtent, hf, scanExtentF_step lines _ j bc inf h]
  rfl

theorem scanExtentF_le (lines : List String) :
    ∀ (fuel j : Nat) (bc : Int) (inf : Bool),
      (scanExtentF lines fuel j bc inf).1 ≤ lines.length := by
  intro fuel
  induction fuel with
  | zero => intro j bc inf; exact Nat.le_refl _
  | succ fuel ih =>
    intro j bc inf
    by_cases h : j < lines.length
    · rw [scanExtentF_step lines fuel j bc inf h]
      dsimp only
      split
      · dsimp only
        omega
      · exact ih _ _ _
    · rw [scanExtentF_stop lines _ j bc inf (by omega)]

theorem scanExtent_le (lines : List String) (j : Nat) (bc : Int) (inf : Bool) :
    (scanExtent lines j bc inf).1 ≤ lines.length :=
  scanExtentF_le lines _ j bc inf

theorem scanExtentF_lb (lines : List String) :
    ∀ (fuel j : Nat) (bc : Int) (inf : Bool), j ≤ lines.length →
      j ≤ (scanExtentF lines fuel j bc inf).1 := by
  intro fuel
  induction fuel with
  | zero => intro j bc inf h; exact h
  | succ fuel ih =>
    intro j bc inf h
    by_cases hlt : j < lines.length
    · rw [scanExtentF_step lines fuel j bc inf hlt]
      dsimp only
      split
      · dsimp only
        omega
      · exact Nat.le_of_succ_le (ih (j + 1) _ _ (by omega))
    · rw [scanExtentF_stop lines _ j bc inf (by omega)]
      exact h

theorem scanExtent_lb (lines : List String) (j : Nat) (bc : Int) (inf : Bool)
    (h : j ≤ lines.length) : j ≤ (scanExtent lines j bc inf).1 :=
  scanExtentF_lb lines _ j bc inf h

theorem scanExtentF_closed_lb (lines : List String) :
    ∀ (fuel j : Nat) (bc : Int) (inf : Bool),
      (scanExtentF lines fuel j bc inf).2 = true →
      j + 1 ≤ (scanExtentF lines fuel j bc inf).1 := by
  intro fuel
  induction fuel with
  | zero => intro j bc inf h; exact Bool.noConfusion h
  | succ fuel ih =>
    intro j bc inf h
    by_cases hlt : j < lines.length
    · rw [scanExtentF_step lines fuel j bc inf hlt] at h ⊢
      dsimp only at h ⊢
      split at h
      next hc =>
        rw [if_pos hc]
      next hc =>
        rw [if_neg hc]
        exact Nat.le_of_succ_le (ih (j + 1) _ _ h)
    · rw [scanExtentF_stop lines _ j bc inf (by omega)] at h
      exact Bool.noConfusion h

theorem scanExtent_closed_lb (lines : List String) (j : Nat) (bc : Int) (inf : Bool)
    (h : (scanExtent lines j bc inf).2 = true) : j + 1 ≤ (scanExtent lines j bc inf).1 :=
  scanExtentF_closed_lb lines _ j bc inf h

theorem findRecordsAux_stop (fmap : List (String × String)) (lines : List String)
    (fuel i : Nat) (h : lines.length ≤ i) : findRecordsAux fmap lines fuel i = [] := by
  cases fuel with
  | zero => rfl
  | succ fuel => rw [findRecordsAux, dif_neg (by omega)]

theorem findRecordsAux_irrel (fmap : List (String × String)) (lines : List String) :
    ∀ (fuel1 fuel2 i : Nat), lines.length - i ≤ fuel1 → lines.length - i ≤ fuel2 →
      findRecordsAux fmap lines fuel1 i = findRecordsAux fmap lines fuel2 i := by
  intro fuel1
  induction fuel1 with
  | zero =>
    intro fuel2 i h1 h2
    rw [findRecordsAux_stop fmap lines 0 i (by omega),
      findRecordsAux_stop fmap lines fuel2 i (by omega)]
  | succ fuel1 ih =>
    intro fuel2 i h1 h2
    by_cases hlt : i < lines.length
    · cases fuel2 with
      | zero => omega
      | succ fuel2 =>
        rw [findRecordsAux, findRecordsAux]
        simp only [dif_pos hlt]
        cases hm : matchHeaderCG lines[i] with
        | none =>
          dsimp only
          exact ih fuel2 (i + 1) (by omega) (by omega)
        | some nm =>
          dsimp only
          cases hk : lookupStr fmap nm with
          | none =>
            dsimp only
            exact ih fuel2 (i + 1) (by omega) (by omega)
          | some key =>
            dsimp only
            have hse : i + 1 ≤ (scanExtent lines (i + 1) 0 false).1 :=
              scanExtent_lb lines (i + 1) 0 false (by omega)
            rw [ih fuel2 (scanExtent lines (i + 1) 0 false).1 (by omega) (by omega)]
    · rw [findRecordsAux_stop fmap lines _ i (by omega),
        findRecordsAux_stop fmap lines fuel2 i (by omega)]

/-- Loop invariant of the scanner: every record produced from position `i`
starts at or after `i`, has `start < stop ≤ len(lines)`, satisfies
`start + 2 ≤ stop` whenever a balanced close was found, and successive
records are separated (`stop ≤` the next record's `start`). -/
theorem findRecordsAux_inv (fmap : List (String × String)) (lines : List String) :
    ∀ (fuel i : Nat),
      (∀ r ∈ findRecordsAux fmap lines fuel i,
        i ≤ r.start ∧ r.start < r.stop ∧ r.stop ≤ lines.length ∧
          (r.closed = true → r.start + 2 ≤ r.stop)) ∧
      List.Chain' (fun a b => a.stop ≤ b.start) (findRecordsAux fmap lines fuel i) := by
  intro fuel
  induction fuel with
  | zero =>
    intro i
    exact ⟨fun r hr => absurd hr (List.not_mem_nil r), List.chain'_nil⟩
  | succ fuel ih =>
    intro i
    by_cases hlt : i < lines.length
    · rw [findRecordsAux, dif_pos hlt]
      cases hm : matchHeaderCG lines[i] with
      | none =>
        dsimp only
        refine ⟨fun r hr => ?_, (ih (i + 1)).2⟩
        have h1 := (ih (i + 1)).1 r hr
        exact ⟨by omega, h1.2.1, h1.2.2.1, h1.2.2.2⟩
      | some nm =>
        dsimp only
        cases hk : lookupStr fmap nm with
        | none =>
          dsimp only
          refine ⟨fun r hr => ?_, (ih (i + 1)).2⟩
          have h1 := (ih (i + 1)).1 r hr
          exact ⟨by omega, h1.2.1, h1.2.2.1, h1.2.2.2⟩
        | some key =>
          dsimp only
          have hse1 : i + 1 ≤ (scanExtent lines (i + 1) 0 false).1 :=
            scanExtent_lb lines (i + 1) 0 false (by omega)
          have hse2 : (scanExtent lines (i + 1) 0 false).1 ≤ lines.length :=
            scanExtent_le lines (i + 1) 0 false
          constructor
          · intro r hr
            rcases List.mem_cons.mp hr with h | h
            · subst h
              dsimp only
              refine ⟨Nat.le_refl _, by omega, hse2, fun hcl => ?_⟩
              have := scanExtent_closed_lb lines (i + 1) 0 false hcl
              omega
            · have h1 := (ih _).1 r h
              exact ⟨by omega, h1.2.1, h1.2.2.1, h1.2.2.2⟩
          · rw [List.chain'_cons']
            refine ⟨fun b hb => ?_, (ih _).2⟩
            have hbmem : b ∈ findRecordsAux fmap lines fuel (scanExtent lines (i + 1) 0 false).1 :=
              List.mem_of_mem_head? hb
            exact ((ih _).1 b hbmem).1
    · rw [findRecordsAux_stop fmap lines _ i (by omega)]
      exact ⟨fun r hr => absurd hr (List.not_mem_nil r), List.chain'_nil⟩

theorem dictFind_dictInsert (m : List FuncRec) (r : FuncRec) (n : String) :
    dictFind (dictInsert m r) n = if r.name = n then some r else dictFind m n := by
  induction m with
  | nil => rfl
  | cons r' rest ih =>
    by_cases h : r'.name = r.name
    · rw [dictInsert, if_pos h]
      by_cases hn : r.name = n
      · rw [dictFind, if_pos hn, if_pos hn]
      · rw [dictFind, if_neg hn, if_neg hn, dictFind, if_neg (by rw [h]; exact hn)]
    · rw [dictInsert, if_neg h]
      by_cases hn : r'.name = n
      · have hrn : ¬ r.name = n := fun hh => h (hn.trans hh.symm)
        rw [dictFind, if_pos hn, if_neg hrn, dictFind, if_pos hn]
      · rw [dictFind, if_neg hn, ih]
        by_cases hrn : r.name = n
        · rw [if_pos hrn, if_pos hrn]
        · rw [if_neg hrn, if_neg hrn, dictFind, if_neg hn]

theorem dictFind_foldl (rs : List FuncRec) :
    ∀ (m : List FuncRec) (n : String),
      dictFind (rs.foldl dictInsert m) n =
        (rs.reverse.find? (fun r => r.name == n)).or (dictFind m n) := by
  induction rs with
  | nil => intro m n; rfl
  | cons r rs ih =>
    intro m n
    rw [List.foldl_cons, ih (dictInsert m r) n, dictFind_dictInsert,
      List.reverse_cons, List.find?_append]
    cases hf : rs.reverse.find? (fun r => r.name == n) with
    | some v => rfl
    | none =>
      by_cases hn : r.name = n
      · simp [List.find?_cons, hn]
      · simp [List.find?_cons, hn]

theorem mem_dictInsert (m : List FuncRec) (r x : FuncRec)
    (h : x ∈ dictInsert m r) : x = r ∨ x ∈ m := by
  induction m with
  | nil => simpa [dictInsert] using h
  | cons r' rest ih =>
    by_cases hh : r'.name = r.name
    · rw [dictInsert, if_pos hh] at h
      rcases List.mem_cons.mp h with h | h
      exacts [Or.inl h, Or.inr (List.mem_cons_of_mem _ h)]
    · rw [dictInsert, if_neg hh] at h
      rcases List.mem_cons.mp h with h | h
      · exact Or.inr (h ▸ List.mem_cons_self r' rest)
      · rcases ih h with h1 | h1
        exacts [Or.inl h1, Or.inr (List.mem_cons_of_mem _ h1)]

theorem mem_foldl_dictInsert (rs : List FuncRec) :
    ∀ (m : List FuncRec) (x : FuncRec), x ∈ rs.foldl dictInsert m → x ∈ rs ∨ x ∈ m := by
  induction rs with
  | nil => intro m x h; exact Or.inr h
  | cons r rs ih =>
    intro m x h
    rcases ih (dictInsert m r) x h with h1 | h1
    · exact Or.inl (List.mem_cons_of_mem _ h1)
    · rcases mem_dictInsert m r x h1 with h2 | h2
      exacts [Or.inl (h2 ▸ List.mem_cons_self r rs), Or.inr h2]

theorem mem_names_dictInsert (m : List FuncRec) (r : FuncRec) (x : String)
    (h : x ∈ (dictInsert m r).map FuncRec.name) :
    x = r.name ∨ x ∈ m.map FuncRec.name := by
  induction m with
  | nil => simpa [dictInsert] using h
  | cons r' rest ih =>
    by_cases hh : r'.name = r.name
    · rw [dictInsert, if_pos hh] at h
      simp only [List.map_cons, List.mem_cons] at h ⊢
      rcases h with h | h
      · exact Or.inl h
      · exact Or.inr (Or.inr h)
    · rw [dictInsert, if_neg hh] at h
      simp only [List.map_cons, List.mem_cons] at h ⊢
      rcases h with h | h
      · exact Or.inr (Or.inl h)
      · rcases ih h with h1 | h1
        exacts [Or.inl h1, Or.inr (Or.inr h1)]

theorem dictInsert_nodup (m : List FuncRec) (r : FuncRec)
    (h : (m.map FuncRec.name).Nodup) : ((dictInsert m r).map FuncRec.name).Nodup := by
  induction m with
  | nil => simp [dictInsert]
  | cons r' rest ih =>
    simp only [List.map_cons, List.nodup_cons] at h
    by_cases hh : r'.name = r.name
    · rw [dictInsert, if_pos hh]
      simp only [List.map_cons, List.nodup_cons]
      exact ⟨hh ▸ h.1, h.2⟩
    · rw [dictInsert, if_neg hh]
      simp only [List.map_cons, List.nodup_cons]
      refine ⟨fun hmem => ?_, ih h.2⟩
      rcases mem_names_dictInsert rest r r'.name hmem with h1 | h1
      exacts [hh h1, h.1 h1]

theorem nodup_foldl_dictInsert (rs : List FuncRec) :
    ∀ (m : List FuncRec), (m.map FuncRec.name).Nodup →
      ((rs.foldl dictInsert m).map FuncRec.name).Nodup := by
  induction rs with
  | nil => intro m h; exact h
  | cons r rs ih => intro m h; exact ih _ (dictInsert_nodup m r h)

theorem writePreamble_eq (lines : List String) :
    writePreamble lines = sliceText lines 0 (lines.findIdx headerPrefixCG) := by
  induction lines with
  | nil => rfl
  | cons l ls ih =>
    rw [writePreamble]
    by_cases h : headerPrefixCG l
    · rw [if_pos h, List.findIdx_cons, h]
      rfl
    · have hb : headerPrefixCG l = false := by simpa using h
      rw [if_neg h, ih, List.findIdx_cons, hb]
      simp only [Bool.cond_false]
      rw [sliceText, sliceText, List.drop_zero, List.drop_zero, Nat.sub_zero, Nat.sub_zero,
        List.take_succ_cons, strConcat]

theorem keepLoop_eq (funcs : List FuncRec) (lines : List String) :
    ∀ ns : List String,
      keepLoop funcs lines ns =
        strConcat (ns.filterMap fun n =>
          (dictFind funcs n).map fun r => sliceText lines r.start r.stop ++ "\n") := by
  intro ns
  induction ns with
  | nil => rfl
  | cons n ns ih =>
    rw [keepLoop, List.filterMap_cons]
    cases h : dictFind funcs n with
    | none =>
      simp only [Option.map_none', String.empty_append, ih]
    | some r =>
      simp only [Option.map_some', strConcat, ih]

theorem mem_sortedInsert (r : FuncRec) (l : List FuncRec) (x : FuncRec)
    (h : x ∈ sortedInsert r l) : x = r ∨ x ∈ l := by
  induction l with
  | nil => simpa [sortedInsert] using h
  | cons r' rest ih =>
    rw [sortedInsert] at h
    by_cases hle : r.start ≤ r'.start
    · rw [if_pos hle] at h
      rcases List.mem_cons.mp h with h | h
      exacts [Or.inl h, Or.inr h]
    · rw [if_neg hle] at h
      rcases List.mem_cons.mp h with h | h
      · exact Or.inr (h ▸ List.mem_cons_self r' rest)
      · rcases ih h with h1 | h1
        exacts [Or.inl h1, Or.inr (List.mem_cons_of_mem _ h1)]

theorem sortedInsert_sorted (r : FuncRec) (l : List FuncRec)
    (h : List.Sorted (fun a b => a.start ≤ b.start) l) :
    List.Sorted (fun a b => a.start ≤ b.start) (sortedInsert r l) := by
  induction l with
  | nil => simp [sortedInsert]
  | cons r' rest ih =>
    rw [sortedInsert]
    by_cases hle : r.start ≤ r'.start
    · rw [if_pos hle, List.sorted_cons]
      refine ⟨fun b hb => ?_, h⟩
      rcases List.mem_cons.mp hb with hb | hb
      · rw [hb]; exact hle
      · have := (List.sorted_cons.mp h).1 b hb
        omega
    · rw [if_neg hle]
      rw [List.sorted_cons] at h ⊢
      refine ⟨fun b hb => ?_, ih h.2⟩
      rcases mem_sortedInsert r rest b hb with hb | hb
      · rw [hb]; omega
      · exact h.1 b hb

theorem sortByStart_sorted (l : List FuncRec) :
    List.Sorted (fun a b => a.start ≤ b.start) (sortByStart l) := by
  induction l with
  | nil => exact List.sorted_nil
  | cons r rest ih => exact sortedInsert_sorted r _ ih

theorem partFiles_paths (cfg : Config) (lines : List String) :
    ∀ (ks : List String) (pr : String × String),
      pr ∈ partFiles cfg lines ks → ∃ k ∈ ks, pr.1 = partPath k := by
  intro ks
  induction ks with
  | nil => intro pr h; exact absurd h (List.not_mem_nil pr)
  | cons k ks ih =>
    intro pr h
    rw [partFiles, List.filterMap_cons] at h
    split at h
    · obtain ⟨k', hk', he⟩ := ih pr h
      exact ⟨k', List.mem_cons_of_mem _ hk', he⟩
    · rename_i b heq
      rcases List.mem_cons.mp h with h | h
      · refine ⟨k, List.mem_cons_self k ks, ?_⟩
        rw [h]
        by_cases hc : groupFor (find_functions cfg.fmap lines) k = []
        · rw [if_pos hc] at heq
          exact Option.noConfusion heq
        · rw [if_neg hc] at heq
          have hb : (partPath k, partitionContent cfg lines k) = b := Option.some.inj heq
          rw [← hb]
      · obtain ⟨k', hk', he⟩ := ih pr h
        exact ⟨k', List.mem_cons_of_mem _ hk', he⟩

/-- Claim C1 (counterexample).  The claim's end-to-end example fails on the
code.  On the stated two-line source (`A::f()...` then `A::g()...`) with
table `\x7bf -> cat1, g -> cat2\x7d` and allow-list `["g"]`, the scanner regex
(which requires a `llvm::\w+*`/`void`/`bool`/`std::string` return type and
the owner `CodeGenerator::`) recognizes neither header, so no `cat1` and no
`cat2` partition file is emitted at all — the only write is the reduced
file — and the reduced file consists of the entire source (all of it is
preamble, including `f`) followed by the closing marker, not of `g`'s body. -/
theorem C1_counterexample :
    (emittedFiles configC1 linesC1).map Prod.fst = [reducedPath]
    ∧ reducedContent configC1 linesC1 =
        "A::f()\x7b int x = 1; return x; \x7d\nA::g()\x7b \x7d\n\x7d // namespace pawc\n" := by
  constructor <;> decide

/-- Claim C1 (amended).  With the example's headers renamed to the shape the
scanner recognizes (`void CodeGenerator::f()...`, `void CodeGenerator::g()...`),
the pipeline still does not produce the claimed outputs: brace counting
starts on the line after the header, so `f`'s single-line body is not closed
on its own line; `g`'s line (whose braces balance the count) closes `f`'s
extent instead.  The scanner records only `f`, with extent `[0, 2)` covering
both lines; the `cat1` file contains both `f`'s and `g`'s text; no `cat2`
file is emitted; and the reduced file contains only the closing namespace
marker (the preamble is empty and `g` is not among the scan records). -/
theorem C1_amended :
    findRecords configC1.fmap linesC1CG = [⟨"f", 0, 2, "cat1", true⟩]
    ∧ emittedFiles configC1 linesC1CG =
        [("src/codegen/codegen_cat1.cpp",
          "// cat1\n#include \"codegen.h\"\n#include <iostream>\n\nnamespace pawc \x7b\n\nvoid CodeGenerator::f()\x7b int x = 1; return x; \x7d\nvoid CodeGenerator::g()\x7b \x7d\n\n\x7d // namespace pawc\n"),
         ("src/codegen/codegen_new.cpp", "\x7d // namespace pawc\n")] := by
  constructor <;> decide

/-- Claim C2 (counterexample).  A closing brace occurring before the first
opening brace does affect the computed extent: in `linesC2a` the stray
`\x7d` on line 1 is subtracted (depth −1) before any `\x7b` has been seen, so
the `\x7b` on line 2 returns the depth to zero and the extent ends at line 3,
excluding the function's real closing brace (line 3).  The same function
without the stray line (`linesC2b`) is captured in full, closing brace
included: the pre-body brace changed which lines the extent covers. -/
theorem C2_counterexample :
    findRecords FUNCTION_MAP linesC2a = [⟨"generateStmt", 0, 3, "stmt", true⟩]
    ∧ sliceText linesC2a 0 3 = "void CodeGenerator::generateStmt(\n\x7d\n\x7b\n"
    ∧ findRecords FUNCTION_MAP linesC2b = [⟨"generateStmt", 0, 3, "stmt", true⟩]
    ∧ sliceText linesC2b 0 3 = "void CodeGenerator::generateStmt(\n\x7b\n\x7d\n" := by
  refine ⟨?_, ?_, ?_, ?_⟩ <;> decide

/-- Claim C2 (amended).  On every scanned line (the lines after the header
line), depth increases by the count of `\x7b` and decreases by the count of
`\x7d` unconditionally; only the loop's termination test (depth back to zero)
is armed by the first `\x7b`.  Closing braces seen before the first opening
brace are therefore subtracted from the depth and can change the extent. -/
theorem C2_depth_update (lines : List String) (j : Nat) (bc : Int) (inf : Bool)
    (h : j < lines.length) :
    scanExtent lines j bc inf =
      (let bc2 : Int := bc + (countChar lines[j] '\x7b' : Int)
         - (countChar lines[j] '\x7d' : Int)
       let inf2 : Bool := hasChar lines[j] '\x7b' || inf
       if inf2 && bc2 == 0 then (j + 1, true) else scanExtent lines (j + 1) bc2 inf2) :=
  scanExtent_step lines j bc inf h

theorem C2_depth_update_witness :
    1 < linesC2b.length ∧ scanExtent linesC2b 1 0 false = (3, true) := by
  refine ⟨by decide, ?_⟩
  rw [C2_depth_update linesC2b 1 0 false (by decide)]
  decide

/-- Claim C3 (code bug).  A scanned definition whose name is absent from the
Classification Table is dropped from all outputs even when its name is on
the allow-list, because `find_functions` only records names that are in
`FUNCTION_MAP` and the reduced-file loop checks `func_name in functions`
against that classified-only dict.  Here `generate` is recognized by the
scanner regex, absent from the table, and on the script's own
`keep_functions` list, yet the scan result is empty and the reduced file
contains no trace of it — so the script's `keep_functions` mechanism can
never retain any of its four names, contradicting its evident purpose. -/
theorem C3_allowlist_dead :
    matchHeaderCG "void CodeGenerator::generate(AST& ast)\n" = some "generate"
    ∧ lookupStr FUNCTION_MAP "generate" = none
    ∧ "generate" ∈ CONFIG_CG.keep
    ∧ findRecords CONFIG_CG.fmap linesGen = []
    ∧ emittedFiles CONFIG_CG linesGen =
        [("src/codegen/codegen_new.cpp",
          "// preamble\nnamespace pawc \x7b\n\x7d // namespace pawc\n")] := by
  refine ⟨?_, ?_, ?_, ?_, ?_⟩ <;> decide

/-- Claim C4 (counterexample).  Two definitions of the same classified name
are both scanned (the discovery sequence has two records with disjoint
extents), but the scanner stores them in a dict keyed by name: the second
assignment overwrites the first, and `find_functions` returns a single
record — the last occurrence — so downstream only one occurrence is
classified and emitted.  The scanner does deduplicate by name. -/
theorem C4_counterexample :
    findRecords FUNCTION_MAP linesDup =
      [⟨"generateStmt", 0, 3, "stmt", true⟩, ⟨"generateStmt", 3, 7, "stmt", true⟩]
    ∧ find_functions FUNCTION_MAP linesDup = [⟨"generateStmt", 3, 7, "stmt", true⟩] := by
  constructor <;> decide

/-- Claim C4 (amended).  Each occurrence is scanned as its own extent, but the
`functions` dict keeps at most one record per name: its name column is
duplicate-free, and looking a name up in it yields exactly the **last**
discovered record with that name (later definitions overwrite earlier ones
in place). -/
theorem C4_dedup_by_name (fmap : List (String × String)) (lines : List String) :
    ((find_functions fmap lines).map FuncRec.name).Nodup
    ∧ ∀ n : String,
        dictFind (find_functions fmap lines) n =
          (findRecords fmap lines).reverse.find? (fun r => r.name == n) := by
  constructor
  · exact nodup_foldl_dictInsert (findRecords fmap lines) [] List.nodup_nil
  · intro n
    rw [find_functions, dictFind_foldl]
    cases hf : (findRecords fmap lines).reverse.find? (fun r => r.name == n) <;> rfl

/-- Claim C5 (counterexample).  The reduced file's preamble is cut by the
looser regex `^(llvm::\w+\*|void|bool|std::string) CodeGenerator::`, not by
the first recognized function-definition header.  In `linesC5`, line 1
(`void CodeGenerator::`) matches the looser pattern but is not a recognized
header (no name and parenthesis); the first recognized header is line 2.
The claim therefore requires lines 0 and 1 in the preamble, but the emitted
reduced file starts with line 0 only — and each retained function's text is
followed by an appended newline that the claim's exhaustive description
omits. -/
theorem C5_counterexample :
    matchHeaderCG "void CodeGenerator::\n" = none
    ∧ headerPrefixCG "void CodeGenerator::\n" = true
    ∧ linesC5.findIdx (fun l => (matchHeaderCG l).isSome) = 2
    ∧ reducedContent configC5 linesC5 =
        "// top\nvoid CodeGenerator::generateStmt()\n\x7b\n\x7d\n\n\x7d // namespace pawc\n" := by
  refine ⟨?_, ?_, ?_, ?_⟩ <;> decide

/-- Claim C5 (amended).  For every input, the reduced file consists of: every
original line strictly before the first line matching the looser
header-prefix regex (which may cut earlier than the first recognized
function-definition header), verbatim; then, for each name in allow-list
order, the exact source text of the scan record of that name followed by an
appended newline, if such a record exists (missing names silently skipped);
then the closing namespace marker, unconditionally. -/
theorem C5_reduced_structure (cfg : Config) (lines : List String) :
    reducedContent cfg lines =
      sliceText lines 0 (lines.findIdx headerPrefixCG)
      ++ strConcat (cfg.keep.filterMap fun n =>
           (dictFind (find_functions cfg.fmap lines) n).map
             fun r => sliceText lines r.start r.stop ++ "\n")
      ++ "\x7d // namespace pawc\n" := by
  rw [reducedContent, writePreamble_eq, keepLoop_eq]

/-- Claim C6 (confirmed).  Every record produced by the scanner satisfies
`startLine < endLine ≤ len(lines)`; the extents of successive records in
discovery order are disjoint and in non-decreasing start order
(`stop ≤` the next record's `start`); and the bounds also hold for the
records surviving in the name-keyed `functions` dict. -/
theorem C6_scan_invariants (fmap : List (String × String)) (lines : List String) :
    ((findRecords fmap lines).all fun r =>
        decide (r.start < r.stop) && decide (r.stop ≤ lines.length)) = true
    ∧ List.Chain' (fun a b => a.stop ≤ b.start) (findRecords fmap lines)
    ∧ ((find_functions fmap lines).all fun r =>
        decide (r.start < r.stop) && decide (r.stop ≤ lines.length)) = true := by
  have hinv := findRecordsAux_inv fmap lines lines.length 0
  refine ⟨?_, hinv.2, ?_⟩
  · rw [List.all_eq_true]
    intro r hr
    have h := hinv.1 r hr
    simp [h.2.1, h.2.2.1]
  · rw [List.all_eq_true]
    intro r hr
    rcases mem_foldl_dictInsert (findRecords fmap lines) [] r hr with h | h
    · have h2 := hinv.1 r h
      simp [h2.2.1, h2.2.2.1]
    · exact absurd h (List.not_mem_nil r)

theorem C6_scan_invariants_witness :
    ((findRecords FUNCTION_MAP linesDup).all fun r =>
        decide (r.start < r.stop) && decide (r.stop ≤ linesDup.length)) = true
    ∧ List.Chain' (fun a b => a.stop ≤ b.start) (findRecords FUNCTION_MAP linesDup)
    ∧ ((find_functions FUNCTION_MAP linesDup).all fun r =>
        decide (r.start < r.stop) && decide (r.stop ≤ linesDup.length)) = true :=
  C6_scan_invariants FUNCTION_MAP linesDup

/-- Claim C7 (confirmed).  Within every partition, the records are emitted in
non-decreasing original-source order: the per-key group (filtered in dict
order, then sorted by start line) is sorted by ascending `start`, and
`partitionContent` writes the group's texts in exactly this list order. -/
theorem C7_partition_sorted (cfg : Config) (lines : List String) (k : String) :
    List.Sorted (fun a b => a.start ≤ b.start)
      (groupFor (find_functions cfg.fmap lines) k) :=
  sortByStart_sorted _

theorem C7_partition_sorted_witness :
    List.Sorted (fun a b => a.start ≤ b.start)
      (groupFor (find_functions CONFIG_CG.fmap linesDup) "stmt") :=
  C7_partition_sorted CONFIG_CG linesDup "stmt"

/-- Claim C8 (confirmed).  The pipeline is a pure function of the input line
sequence and the configuration (classification table, key order, headers,
allow-list): two runs on equal inputs emit byte-identical files at identical
paths. -/
theorem C8_deterministic (cfg cfg' : Config) (lines lines' : List String)
    (h1 : cfg = cfg') (h2 : lines = lines') :
    emittedFiles cfg lines = emittedFiles cfg' lines' := by
  subst h1
  subst h2
  rfl

theorem C8_deterministic_witness :
    CONFIG_CG = CONFIG_CG ∧ linesGen = linesGen
    ∧ emittedFiles CONFIG_CG linesGen = emittedFiles CONFIG_CG linesGen :=
  ⟨rfl, rfl, C8_deterministic CONFIG_CG CONFIG_CG linesGen linesGen rfl rfl⟩

/-- Claim C9 (confirmed).  Brace scanning starts on the line after the header
line (`j = i + 1`), so the header line's own braces are never counted, and a
record whose extent ended because the depth returned to zero (`closed`,
i.e. the loop hit `break` rather than running off the end of input) has
`endLine ≥ startLine + 2`: the body cannot be closed on the header line. -/
theorem C9_closed_extent (fmap : List (String × String)) (lines : List String)
    (r : FuncRec) (hr : r ∈ findRecords fmap lines) (hc : r.closed = true) :
    r.start + 2 ≤ r.stop :=
  ((findRecordsAux_inv fmap lines lines.length 0).1 r hr).2.2.2 hc

theorem C9_closed_extent_witness :
    (⟨"generateStmt", 0, 3, "stmt", true⟩ : FuncRec) ∈ findRecords FUNCTION_MAP linesC2b
    ∧ (⟨"generateStmt", 0, 3, "stmt", true⟩ : FuncRec).closed = true
    ∧ (⟨"generateStmt", 0, 3, "stmt", true⟩ : FuncRec).start + 2
        ≤ (⟨"generateStmt", 0, 3, "stmt", true⟩ : FuncRec).stop :=
  ⟨by decide, rfl, C9_closed_extent FUNCTION_MAP linesC2b _ (by decide) rfl⟩

/-- Claim C10 (confirmed).  No output path of a run equals the input path
`src/codegen/codegen.cpp`: every partition file is written to
`src/codegen/codegen_<key>.cpp` for a key of the script's fixed key list,
and the reduced file to `src/codegen/codegen_new.cpp`, so the input file is
never overwritten. -/
theorem C10_output_paths (lines : List String) :
    ((emittedFiles CONFIG_CG lines).map Prod.fst).all (fun p => p != inputPath) = true := by
  rw [List.all_eq_true]
  intro p hp
  rw [List.mem_map] at hp
  obtain ⟨pr, hpr, hfst⟩ := hp
  rw [emittedFiles] at hpr
  rcases List.mem_append.mp hpr with h | h
  · obtain ⟨k, hk, heq⟩ := partFiles_paths CONFIG_CG lines CONFIG_CG.keyOrder pr h
    rw [← hfst, heq]
    simp only [CONFIG_CG, fileKeys, List.mem_cons, List.not_mem_nil, or_false] at hk
    rcases hk with rfl | rfl | rfl | rfl | rfl <;> decide
  · rcases List.mem_cons.mp h with h | h
    · rw [← hfst, h]
      show (reducedPath != inputPath) = true
      decide
    · exact absurd h (List.not_mem_nil pr)

theorem C10_output_paths_witness :
    ((emittedFiles CONFIG_CG linesGen).map Prod.fst).all (fun p => p != inputPath) = true :=
  C10_output_paths linesGen
